import Mathlib

/-!
Verification of the hunt text-indexing library: a shallow embedding of the
Rust source (tokenizer, suffix array, BWT, occurrence tables, FM-index
search, fuzzy search, persistence codec) together with proofs and
refutations of the specification claims.

Strings are modelled as lists of Unicode scalar values (`List Char`).
Rust compares `&str` values by their UTF-8 bytes; since UTF-8 preserves
scalar-value order, lexicographic comparison of `List Char` is the same
order.  Byte-index behaviour (Rust slice panics on non-boundaries) is
modelled separately for the safety claim.
-/

namespace Hunt

/-- Lexicographic comparison of character lists, mirroring the order in
which Rust compares string slices (byte order of valid UTF-8 agrees with
scalar order). -/
def strLe : List Char → List Char → Bool
  | [], _ => true
  | _ :: _, [] => false
  | a :: as, b :: bs => if a < b then true else if b < a then false else strLe as bs

/-- Relation form of `strLe`, used as the sort order. -/
def strLeP (a b : List Char) : Prop := strLe a b = true

instance : DecidableRel strLeP := fun a b => instDecidableEqBool (strLe a b) true

/-- Order on suffix start offsets of a fixed text, by the suffix starting
there; this is the key `sort_by_key(|&i| &text[i..])` uses. -/
def suffLeP (t : List Char) (i j : Nat) : Prop := strLe (t.drop i) (t.drop j) = true

instance (t : List Char) : DecidableRel (suffLeP t) :=
  fun i j => instDecidableEqBool (strLe (t.drop i) (t.drop j)) true

/-- Embedding of `Hunt::suffix_array`: every start offset of the text,
sorted by the lexicographic order of the suffix starting there. -/
def suffix_array (t : List Char) : List Nat :=
  (List.range t.length).insertionSort (suffLeP t)

/-- The cyclic rotation of the text starting at offset `i`:
`format!("{}{}", &text[i..], &text[..i])`. -/
def rotation (t : List Char) (i : Nat) : List Char := t.drop i ++ t.take i

/-- All cyclic rotations of the text in start-offset order. -/
def rotations (t : List Char) : List (List Char) :=
  (List.range t.length).map (rotation t)

/-- Embedding of `Hunt::build_bwt`: sort all cyclic rotations and take the
last character of each.  `getLast?`/`filterMap` models the
`chars().last().unwrap()` step; every rotation of a nonempty text is
nonempty, so the `unwrap` never fails where `build_bwt` is reached. -/
def build_bwt (t : List Char) : List Char :=
  (((rotations t).insertionSort strLeP).map (fun s => s.getLast?)).reduceOption

/-- Byte length of the UTF-8 encoding of the text, mirroring Rust
`str::len`. -/
def utf8Len (t : List Char) : Nat := (t.map Char.utf8Size).sum

/-- Embedding of `Hunt::count_occurrences`: a vector of `bwt.len() + 1`
zeros, then `counts[i + 1] = counts[i] + (c == target)` for each character
index `i`. -/
def count_occurrences (bwt : List Char) (target : Char) : List Nat :=
  bwt.enum.foldl
    (fun counts ic =>
      counts.set (ic.1 + 1) (counts.getD ic.1 0 + (if ic.2 = target then 1 else 0)))
    (List.replicate (utf8Len bwt + 1) 0)

/-- One step of `Hunt::compute_occurrences`: fetch (or freshly insert) the
row for character `c` and write `counts[i + 1] = counts[i] + 1`. -/
def occInsert (k : Char) (v : List Nat) : List (Char × List Nat) → List (Char × List Nat)
  | [] => [(k, v)]
  | (k', v') :: rest => if k = k' then (k, v) :: rest else (k', v') :: occInsert k v rest

/-- Embedding of `Hunt::compute_occurrences` over an association list
standing for the `HashMap` (only lookups are ever observed). -/
def compute_occurrences (bwt : List Char) : List (Char × List Nat) :=
  bwt.enum.foldl
    (fun tbl ic =>
      let counts := ((tbl.lookup ic.2).getD (List.replicate (utf8Len bwt + 1) 0))
      occInsert ic.2 (counts.set (ic.1 + 1) (counts.getD ic.1 0 + 1)) tbl)
    []

/-- The loop of `Hunt::search_fm_index` over the reversed query:
`left = occ[left]; right = occ[right]; return None when left >= right`. -/
def fmLoop (bwt : List Char) : List Char → Nat × Nat → Option (Nat × Nat)
  | [], lr => some lr
  | c :: rest, lr =>
    let occ := count_occurrences bwt c
    let l' := occ.getD lr.1 0
    let r' := occ.getD lr.2 0
    if r' ≤ l' then none else fmLoop bwt rest (l', r')

/-- Embedding of `Hunt::search_fm_index`.  All list indexing is in bounds
in every use below, so `getD` agrees with the panicking Rust indexing. -/
def search_fm_index (bwt : List Char) (sa : List Nat) (query : List Char) : Option Nat :=
  match fmLoop bwt query.reverse (0, sa.length) with
  | none => none
  | some lr => some (sa.getD lr.1 0)

/-- Embedding of the `FMIndex` record: one persisted entry per document.
The `HashMap` occurrence table is carried as an association list (only its
key-value pairs are observable). -/
structure FMIndex where
  filename : List Char
  bwt : List Char
  suffix_array : List Nat
  occ_table : List (Char × List Nat)
  tokens : List (List Char)
deriving DecidableEq

/-- Embedding of `FMIndexCollection`. -/
structure FMIndexCollection where
  indexes : List FMIndex
deriving DecidableEq

/-- Embedding of `Hunt::search_exact`.  `index.suffix_array[0]` panics in
Rust when the suffix array is empty; `none` models that panic. -/
def search_exact (query : List Char) : List FMIndex → Option (List (List Char × Nat))
  | [] => some []
  | e :: rest =>
    if query ∈ e.tokens then
      match e.suffix_array with
      | [] => none
      | s :: _ => (search_exact query rest).map (fun r => (e.filename, s) :: r)
    else search_exact query rest

/-- Levenshtein edit distance between two character lists, the behaviour
of the external `strsim::levenshtein` (minimum number of single-character
insertions, deletions and substitutions). -/
def levenshtein : List Char → List Char → Nat
  | [], b => b.length
  | a :: as, [] => (a :: as).length
  | a :: as, b :: bs =>
    if a = b then levenshtein as bs
    else 1 + min (levenshtein as (b :: bs)) (min (levenshtein (a :: as) bs) (levenshtein as bs))
termination_by a b => a.length + b.length

/-- The candidate list `Hunt::search_fuzzy` accumulates before sorting:
document order, then token order, keeping pairs within `max_distance`. -/
def fuzzyCandidates (query : List Char) (maxd : Nat) (indices : List FMIndex) :
    List (List Char × List Char × Nat) :=
  (indices.map (fun e =>
    e.tokens.filterMap (fun tok =>
      if levenshtein query tok ≤ maxd then some (e.filename, tok, levenshtein query tok)
      else none))).flatten

/-- Order on fuzzy results: `sort_by_key(|k| k.2)`, smallest distance
first. -/
def distLeP (x y : List Char × List Char × Nat) : Prop := x.2.2 ≤ y.2.2

instance : DecidableRel distLeP := fun x y => Nat.decLe x.2.2 y.2.2

instance : IsTotal (List Char × List Char × Nat) distLeP :=
  ⟨fun x y => Nat.le_total x.2.2 y.2.2⟩

instance : IsTrans (List Char × List Char × Nat) distLeP :=
  ⟨fun _ _ _ h h' => Nat.le_trans h h'⟩

/-- Embedding of `Hunt::search_fuzzy`: collect candidates, then stable
sort ascending by distance (Rust `sort_by_key` is stable; a stable sort is
uniquely determined, so insertion sort stands in for it). -/
def search_fuzzy (query : List Char) (maxd : Nat) (indices : List FMIndex) :
    List (List Char × List Char × Nat) :=
  (fuzzyCandidates query maxd indices).insertionSort distLeP

/-- Word characters for the segmentation model. -/
def isWordChar (c : Char) : Bool := c.isAlphanum

/-- Accumulator-based splitter behind `unicodeWords`. -/
def unicodeWordsAux : List Char → List Char → List (List Char)
  | [], acc => if acc.isEmpty then [] else [acc.reverse]
  | c :: rest, acc =>
    if isWordChar c then unicodeWordsAux rest (c :: acc)
    else if acc.isEmpty then unicodeWordsAux rest []
    else acc.reverse :: unicodeWordsAux rest []

/-- Modelled from the spec: the external text-segmentation capability
(`unicode_segmentation::unicode_words`), which the spec describes as
splitting text on Unicode word boundaries.  Modelled as maximal runs of
alphanumeric characters, which matches the library on the inputs used
here. -/
def unicodeWords (t : List Char) : List (List Char) := unicodeWordsAux t []

/-- Rust `str::to_lowercase`, restricted to the character-wise case
mapping (faithful on ASCII, where all inputs in this development live). -/
def lowercase (w : List Char) : List Char := w.map Char.toLower

/-- Embedding of `Hunt::tokenize`, parameterised by the stop-word list
the external dictionary returns: for each word, the stop-word test is
applied to the word as segmented, and only then is the word lower-cased
and inserted into the (insertion-ordered) set. -/
def tokenize (stopwords : List (List Char)) (text : List Char) : List (List Char) :=
  (unicodeWords text).foldl
    (fun toks w =>
      if w ∈ stopwords then toks
      else if lowercase w ∈ toks then toks else toks ++ [lowercase w])
    []

/-- Embedding of `Hunt::index_file` with the file contents supplied
directly (the read itself is the excluded I/O layer). -/
def index_document (stopwords : List (List Char)) (filename content : List Char) : FMIndex :=
  { filename := filename
    bwt := build_bwt content
    suffix_array := suffix_array content
    occ_table := compute_occurrences (build_bwt content)
    tokens := tokenize stopwords content }

/-- Rank lookup into a `compute_occurrences` table. -/
def occRank (tbl : List (Char × List Nat)) (c : Char) (i : Nat) : Nat :=
  ((tbl.lookup c).getD []).getD i 0

/-- Rank lookup via `count_occurrences`, the cumulative-count routine the
search path uses. -/
def countRank (bwt : List Char) (c : Char) (i : Nat) : Nat :=
  (count_occurrences bwt c).getD i 0

/-- Modelled from the spec: one LF-mapping step of the standard BWT
inversion (§8), `LF(i) = C[L[i]] + rank(L[i], i)` where `C[c]` counts the
characters of the BWT smaller than `c` and ranks come from the supplied
occurrence table. -/
def lfStep (bwt : List Char) (rank : Char → Nat → Nat) (r : Nat) : Nat :=
  let c := bwt.getD r ' '
  bwt.countP (fun d => d < c) + rank c r

/-- Modelled from the spec: the walk of the standard BWT inversion,
prepending `L[r]` and moving to `LF(r)`, `k` times. -/
def invertWalk (bwt : List Char) (rank : Char → Nat → Nat) :
    Nat → Nat → List Char → List Char
  | 0, _, acc => acc
  | k + 1, r, acc => invertWalk bwt rank k (lfStep bwt rank r) (bwt.getD r ' ' :: acc)

/-- Modelled from the spec: the standard BWT-inversion procedure of §8,
which the source does not implement.  Start from the row whose suffix
offset is `0` and apply the LF mapping `N` times, using the given
occurrence table for rank lookups. -/
def invert_bwt (bwt : List Char) (sa : List Nat) (rank : Char → Nat → Nat) : List Char :=
  invertWalk bwt rank bwt.length (sa.indexOf 0) []

/-- Little-endian base-256 digits, `k` bytes. -/
def natToBytes : Nat → Nat → List Nat
  | 0, _ => []
  | k + 1, n => n % 256 :: natToBytes k (n / 256)

/-- Value of a little-endian byte list. -/
def bytesToNat : List Nat → Nat
  | [] => 0
  | b :: bs => b + 256 * bytesToNat bs

/-- Modelled from the spec: the persisted integer format of §6 (the
external `bincode` codec writes unsigned integers as 8 little-endian
bytes). -/
def encodeNat (n : Nat) : List Nat := natToBytes 8 n

/-- Length-prefixed sequence encoding of §6. -/
def encodeListOf (enc : α → List Nat) (l : List α) : List Nat :=
  encodeNat l.length ++ (l.map enc).flatten

/-- A character is persisted as its Unicode scalar value. -/
def encodeChar (c : Char) : List Nat := encodeNat c.toNat

/-- Length-prefixed text of §6. -/
def encodeStr (s : List Char) : List Nat := encodeListOf encodeChar s

/-- One occurrence-table binding: character, then its count row. -/
def encodeOccRow (p : Char × List Nat) : List Nat :=
  encodeChar p.1 ++ encodeListOf encodeNat p.2

/-- Modelled from the spec: the per-entry field layout of §6 — filename,
bwt, suffix array, occurrence table, tokens, each length-prefixed. -/
def encodeEntry (e : FMIndex) : List Nat :=
  encodeStr e.filename ++ encodeStr e.bwt ++ encodeListOf encodeNat e.suffix_array ++
    encodeListOf encodeOccRow e.occ_table ++ encodeListOf encodeStr e.tokens

/-- Modelled from the spec: `encode(collection)`, the byte image
`save_fm_indexes` writes. -/
def encode (c : FMIndexCollection) : List Nat := encodeListOf encodeEntry c.indexes

/-- Parse a fixed-width unsigned integer; fails on truncation. -/
def parseNat (b : List Nat) : Option (Nat × List Nat) :=
  if 8 ≤ b.length then some (bytesToNat (b.take 8), b.drop 8) else none

/-- Parse a character, rejecting invalid scalar values. -/
def parseChar (b : List Nat) : Option (Char × List Nat) :=
  match parseNat b with
  | none => none
  | some (n, rest) => if _ : n.isValidChar then some (Char.ofNat n, rest) else none

/-- Parse exactly `k` items with `p`. -/
def parseCount (p : List Nat → Option (α × List Nat)) :
    Nat → List Nat → Option (List α × List Nat)
  | 0, b => some ([], b)
  | k + 1, b =>
    match p b with
    | none => none
    | some (x, rest) =>
      match parseCount p k rest with
      | none => none
      | some (xs, rest') => some (x :: xs, rest')

/-- Parse a length-prefixed sequence. -/
def parseListOf (p : List Nat → Option (α × List Nat)) (b : List Nat) :
    Option (List α × List Nat) :=
  match parseNat b with
  | none => none
  | some (n, rest) => parseCount p n rest

/-- Parse length-prefixed text. -/
def parseStr (b : List Nat) : Option (List Char × List Nat) := parseListOf parseChar b

/-- Parse one occurrence-table binding. -/
def parseOccRow (b : List Nat) : Option ((Char × List Nat) × List Nat) :=
  match parseChar b with
  | none => none
  | some (c, rest) =>
    match parseListOf parseNat rest with
    | none => none
    | some (row, rest') => some ((c, row), rest')

/-- Parse one persisted entry, fields in the §6 order. -/
def parseEntry (b : List Nat) : Option (FMIndex × List Nat) :=
  match parseStr b with
  | none => none
  | some (fn, b1) =>
    match parseStr b1 with
    | none => none
    | some (bw, b2) =>
      match parseListOf parseNat b2 with
      | none => none
      | some (sa, b3) =>
        match parseListOf parseOccRow b3 with
        | none => none
        | some (occ, b4) =>
          match parseListOf parseStr b4 with
          | none => none
          | some (toks, b5) => some (⟨fn, bw, sa, occ, toks⟩, b5)

/-- Modelled from the spec: `decode(bytes)` as performed by
`load_fm_indexes`; fails (`none`, a `CodecError`) on truncated or
malformed input, with no partial decode. -/
def decode (b : List Nat) : Option FMIndexCollection :=
  match parseListOf parseEntry b with
  | some (l, []) => some ⟨l⟩
  | _ => none

/-- Embedding of `Hunt::load_fm_indexes` on the bytes read from disk: the
source calls `bincode::deserialize(&data).unwrap()`, so a decode failure
is a panic, modelled as `none`. -/
def load_fm_indexes (bytes : List Nat) : Option FMIndexCollection := decode bytes

/-- Whether byte offset `i` is a character boundary of the UTF-8 encoding
of the text. -/
def isBoundary : List Char → Nat → Bool
  | _, 0 => true
  | [], _ + 1 => false
  | c :: rest, i + 1 =>
    if c.utf8Size ≤ i + 1 then isBoundary rest (i + 1 - c.utf8Size) else false

/-- Byte-level model of `Hunt::suffix_array`: Rust iterates the byte
offsets `0..text.len()` and slices `&text[i..]` for each while sorting,
which panics (modelled as `none`) as soon as any offset is not a
character boundary; otherwise all characters are single-byte and the
result is the character-level suffix array. -/
def suffix_array_bytes (t : List Char) : Option (List Nat) :=
  if (List.range (utf8Len t)).all (fun i => isBoundary t i) then some (suffix_array t)
  else none

/-- Byte-level model of `Hunt::build_bwt`, which slices `&text[i..]` and
`&text[..i]` at every byte offset and therefore panics under the same
condition. -/
def build_bwt_bytes (t : List Char) : Option (List Char) :=
  if (List.range (utf8Len t)).all (fun i => isBoundary t i) then some (build_bwt t)
  else none

/-- Bound under which the fixed-width integer format is faithful: every
persisted number fits in 64 bits, as every Rust `usize` value and
in-memory length does. -/
def wfNat (n : Nat) : Prop := n < 2 ^ 64

/-- A persistable string: its length fits in the length prefix. -/
def wfStr (s : List Char) : Prop := s.length < 2 ^ 64

/-- A persistable index entry: every stored number and length fits the
fixed-width integer format. -/
def wfEntry (e : FMIndex) : Prop :=
  wfStr e.filename ∧ wfStr e.bwt ∧
    (e.suffix_array.length < 2 ^ 64 ∧ ∀ x ∈ e.suffix_array, wfNat x) ∧
    (e.occ_table.length < 2 ^ 64 ∧
      ∀ p ∈ e.occ_table, p.2.length < 2 ^ 64 ∧ ∀ x ∈ p.2, wfNat x) ∧
    (e.tokens.length < 2 ^ 64 ∧ ∀ w ∈ e.tokens, wfStr w)

/-- A persistable collection. -/
def wfCollection (c : FMIndexCollection) : Prop :=
  c.indexes.length < 2 ^ 64 ∧ ∀ e ∈ c.indexes, wfEntry e

/-- The sample sentence of the tokenizer example. -/
def exampleSentence : List Char :=
  ['T', 'h', 'e', ' ', 'q', 'u', 'i', 'c', 'k', ' ', 'f', 'o', 'x', ' ', 'r', 'u', 'n', 's', '.']

/-- C1: the claim says `compute_occurrences(bwt)[c][i]` is the count of
`c` in the first `i` characters of `bwt`, non-decreasing with final entry
the total count.  On `bwt = "aba"` the code instead resets between
occurrences: the row for the character a is `[0, 1, 0, 1]`, which
disagrees with the true cumulative row `[0, 1, 1, 2]` that the sibling
routine `count_occurrences` computes; it is not non-decreasing and its
last entry is 1, not the total count 2. -/
theorem claim1_compute_occurrences_not_cumulative :
    (compute_occurrences ['a', 'b', 'a']).lookup 'a' = some [0, 1, 0, 1] ∧
      count_occurrences ['a', 'b', 'a'] 'a' = [0, 1, 1, 2] ∧
      ((compute_occurrences ['a', 'b', 'a']).lookup 'a').getD [] ≠
        count_occurrences ['a', 'b', 'a'] 'a' := by
  refine ⟨rfl, rfl, ?_⟩
  decide

/-- C2 counterexample: for `text = "baa"` (length 3) the rotation-sorted
BWT is `"baa"` while the suffix array is `[2, 1, 0]`, and the claimed
identity `bwt[i] = text[(sa[i] - 1) mod 3]` would give `"aba"`; sorting
rotations and sorting suffixes disagree because the suffix `"a"` sorts
before `"aa"` while the rotation `"aab"` sorts before `"aba"`. -/
theorem claim2_counterexample :
    build_bwt ['b', 'a', 'a'] ≠
      (suffix_array ['b', 'a', 'a']).map
        (fun k => ['b', 'a', 'a'].getD ((k + 3 - 1) % 3) 'a') := by
  decide

/-- C3: the claim says `search_fm_index` returns `None` iff the query
does not occur in the text.  For `text = "ab"` the query `"ab"` occurs
(it is the whole text), yet on `bwt = build_bwt "ab" = "ba"` and
`sa = [0, 1]` the search returns `None`: the update rule omits the
`C[c]` offset of classic FM backward search. -/
theorem claim3_backward_search_misses_occurring_query :
    search_fm_index (build_bwt ['a', 'b']) (suffix_array ['a', 'b']) ['a', 'b'] = none ∧
      ['a', 'b'] <:+: ['a', 'b'] := by
  exact ⟨by decide, [], [], by decide⟩

/-- C4: the claim says the standard BWT inversion, with rank lookups
taken from `compute_occurrences(build_bwt(text))`, reconstructs every
text.  For `text = "aabb"` (with `bwt = "baba"`, `sa = [0, 1, 3, 2]`)
the walk gets stuck on the broken rank row of the character b and yields
`"bbbb"`; the same procedure with ranks from the correct cumulative
routine `count_occurrences` does reconstruct `"aabb"`, isolating the
`compute_occurrences` bug as the cause. -/
theorem claim4_inversion_fails_on_buggy_table :
    invert_bwt (build_bwt ['a', 'a', 'b', 'b']) (suffix_array ['a', 'a', 'b', 'b'])
        (occRank (compute_occurrences (build_bwt ['a', 'a', 'b', 'b']))) =
        ['b', 'b', 'b', 'b'] ∧
      invert_bwt (build_bwt ['a', 'a', 'b', 'b']) (suffix_array ['a', 'a', 'b', 'b'])
        (countRank (build_bwt ['a', 'a', 'b', 'b'])) = ['a', 'a', 'b', 'b'] := by
  refine ⟨?_, ?_⟩ <;> decide

/-- C6: the claim says no operation panics on malformed-but-well-typed
input.  `suffix_array` and `build_bwt` slice the text at every byte
offset, so any multi-byte character (here U+00E9, two UTF-8 bytes) makes
them panic; and `load_fm_indexes` calls `unwrap()` on the decode result,
so a truncated byte stream (here the empty file) panics instead of
returning an error value. -/
theorem claim6_panics_on_malformed_input :
    suffix_array_bytes [Char.ofNat 233] = none ∧
      build_bwt_bytes [Char.ofNat 233] = none ∧
      load_fm_indexes [] = none := by
  refine ⟨?_, ?_, ?_⟩ <;> rfl

/-- C7: the claim says tokenization discards stop words, and that with
stop-word set containing the word the, tokenizing the sample sentence
yields exactly the quick/fox/runs tokens.  The code tests stop-word
membership before lower-casing, so the capitalised first word survives
the filter and the stop word appears in the output. -/
theorem claim7_stopword_survives :
    tokenize [['t', 'h', 'e']] exampleSentence =
        [['t', 'h', 'e'], ['q', 'u', 'i', 'c', 'k'], ['f', 'o', 'x'], ['r', 'u', 'n', 's']] ∧
      ['t', 'h', 'e'] ∈ tokenize [['t', 'h', 'e']] exampleSentence := by
  refine ⟨by decide, by decide⟩

theorem tokenize_nil (sw : List (List Char)) : tokenize sw [] = [] := rfl

theorem ne_nil_of_mem_tokenize {sw : List (List Char)} {c q : List Char}
    (h : q ∈ tokenize sw c) : c ≠ [] := by
  intro hc
  rw [hc, tokenize_nil] at h
  exact absurd h (List.not_mem_nil q)

theorem length_suffix_array (t : List Char) : (suffix_array t).length = t.length := by
  rw [suffix_array, List.length_insertionSort, List.length_range]

/-- C8: over the single-entry collection built from a document, exact
search succeeds (no panic), returns a non-empty result exactly when the
query is one of the document tokens, and every hit carries the filename
together with the first suffix-array offset. -/
theorem claim8_exact_search_single_document (sw : List (List Char)) (fn content q : List Char) :
    ∃ res, search_exact q [index_document sw fn content] = some res ∧
      (res ≠ [] ↔ q ∈ tokenize sw content) ∧
      ∀ hit ∈ res, hit = (fn, (suffix_array content).headD 0) := by
  by_cases hq : q ∈ tokenize sw content
  · have hc : content ≠ [] := ne_nil_of_mem_tokenize hq
    have hlen : 0 < (suffix_array content).length := by
      rw [length_suffix_array]
      exact List.length_pos.mpr hc
    obtain ⟨s, rest, hsa⟩ : ∃ s rest, suffix_array content = s :: rest := by
      cases h : suffix_array content with
      | nil => rw [h] at hlen; simp at hlen
      | cons s rest => exact ⟨s, rest, rfl⟩
    refine ⟨[(fn, s)], ?_, ?_, ?_⟩
    · simp [search_exact, index_document, hq, hsa]
    · simp [hq]
    · intro hit hmem
      rw [hsa]
      simp only [List.mem_singleton] at hmem
      simp [hmem]
  · refine ⟨[], ?_, ?_, ?_⟩
    · simp [search_exact, index_document, hq]
    · simp [hq]
    · intro hit hmem
      exact absurd hmem (List.not_mem_nil hit)

/-- C8 witness: the theorem instantiated at a one-character document. -/
theorem claim8_witness :
    ∃ res, search_exact ['a'] [index_document [] ['f'] ['a']] = some res ∧
      (res ≠ [] ↔ ['a'] ∈ tokenize [] ['a']) ∧
      ∀ hit ∈ res, hit = (['f'], (suffix_array ['a']).headD 0) :=
  claim8_exact_search_single_document [] ['f'] ['a'] ['a']

theorem levenshtein_self (a : List Char) : levenshtein a a = 0 := by
  induction a with
  | nil => simp [levenshtein]
  | cons x xs ih => simp [levenshtein, ih]

theorem levenshtein_eq_zero_iff (a b : List Char) : levenshtein a b = 0 ↔ a = b := by
  induction a generalizing b with
  | nil => cases b <;> simp [levenshtein]
  | cons x xs ih =>
    cases b with
    | nil => simp [levenshtein]
    | cons y ys =>
      by_cases hxy : x = y
      · subst hxy
        simp [levenshtein, ih]
      · simp [levenshtein, hxy]

theorem search_exact_map_filename (q : List Char) :
    ∀ (indices : List FMIndex) (res : List (List Char × Nat)),
      search_exact q indices = some res →
      res.map (fun r => r.1) =
        ((indices.filter (fun e => decide (q ∈ e.tokens))).map FMIndex.filename) := by
  intro indices
  induction indices with
  | nil =>
    intro res h
    rw [search_exact] at h
    cases h
    rfl
  | cons e rest ih =>
    intro res h
    by_cases hq : q ∈ e.tokens
    · rw [search_exact, if_pos hq] at h
      cases hsa : e.suffix_array with
      | nil => rw [hsa] at h; cases h
      | cons s tl =>
        rw [hsa] at h
        rw [Option.map_eq_some'] at h
        obtain ⟨r', hr', rfl⟩ := h
        rw [List.filter_cons, if_pos (decide_eq_true hq), List.map_cons, List.map_cons]
        exact congrArg _ (ih r' hr')
    · rw [search_exact, if_neg hq] at h
      rw [List.filter_cons, if_neg (fun hh => hq (of_decide_eq_true hh))]
      exact ih res h

theorem filterMap_levenshtein_zero (fn q : List Char) :
    ∀ (toks : List (List Char)), toks.Nodup →
      (toks.filterMap (fun tok =>
        if levenshtein q tok ≤ 0 then some (fn, tok, levenshtein q tok) else none)) =
        if q ∈ toks then [(fn, q, 0)] else [] := by
  intro toks
  induction toks with
  | nil => intro _; rfl
  | cons t ts ih =>
    intro hnd
    obtain ⟨hnotmem, hnd'⟩ := List.nodup_cons.mp hnd
    rw [List.filterMap_cons]
    by_cases hqt : q = t
    · subst hqt
      rw [if_pos (by rw [levenshtein_self])]
      rw [ih hnd', if_neg hnotmem]
      simp [levenshtein_self]
    · have hlev : ¬ levenshtein q t ≤ 0 := by
        rw [Nat.le_zero, levenshtein_eq_zero_iff]
        exact hqt
      rw [if_neg hlev, ih hnd']
      have : (q ∈ t :: ts) ↔ q ∈ ts := by
        simp [List.mem_cons, hqt]
      simp only [this]

theorem fuzzyCandidates_zero (q : List Char) (indices : List FMIndex)
    (hnd : ∀ e ∈ indices, e.tokens.Nodup) :
    fuzzyCandidates q 0 indices =
      (indices.filter (fun e => decide (q ∈ e.tokens))).map (fun e => (e.filename, q, 0)) := by
  induction indices with
  | nil => rfl
  | cons e rest ih =>
    have hnd' : e.tokens.Nodup := hnd e (List.mem_cons_self e rest)
    have hrest : ∀ e' ∈ rest, e'.tokens.Nodup := fun e' h' => hnd e' (List.mem_cons_of_mem e h')
    have hstep : fuzzyCandidates q 0 (e :: rest) =
        (if q ∈ e.tokens then [(e.filename, q, 0)] else []) ++ fuzzyCandidates q 0 rest := by
      rw [fuzzyCandidates, List.map_cons, List.flatten_cons,
        filterMap_levenshtein_zero e.filename q e.tokens hnd']
      rfl
    rw [hstep, ih hrest]
    by_cases hq : q ∈ e.tokens
    · rw [if_pos hq]
      rw [List.filter_cons, if_pos (decide_eq_true hq), List.map_cons]
      rfl
    · rw [if_neg hq]
      rw [List.filter_cons, if_neg (fun hh => hq (of_decide_eq_true hh)), List.nil_append]

/-- C10: with duplicate-free token lists and a panic-free exact search,
fuzzy search at distance 0 agrees with exact search: same filenames in
the same order, every fuzzy hit carrying the query itself at distance
0. -/
theorem claim10_fuzzy_zero_agrees_with_exact (q : List Char) (indices : List FMIndex)
    (res : List (List Char × Nat))
    (hnd : ∀ e ∈ indices, e.tokens.Nodup)
    (hex : search_exact q indices = some res) :
    (search_fuzzy q 0 indices).map (fun r => r.1) = res.map (fun r => r.1) ∧
      ∀ r ∈ search_fuzzy q 0 indices, r.2.1 = q ∧ r.2.2 = 0 := by
  have hcand := fuzzyCandidates_zero q indices hnd
  have hsorted : (fuzzyCandidates q 0 indices).Sorted distLeP := by
    rw [hcand]
    apply List.pairwise_of_forall_mem_list
    intro a ha b hb
    rw [List.mem_map] at ha hb
    obtain ⟨ea, _, rfl⟩ := ha
    obtain ⟨eb, _, rfl⟩ := hb
    exact Nat.le_refl 0
  have hid : search_fuzzy q 0 indices = fuzzyCandidates q 0 indices :=
    hsorted.insertionSort_eq
  constructor
  · rw [hid, hcand, search_exact_map_filename q indices res hex, List.map_map]
    rfl
  · intro r hr
    rw [hid, hcand, List.mem_map] at hr
    obtain ⟨e, _, rfl⟩ := hr
    exact ⟨rfl, rfl⟩

/-- C10 witness: a one-entry collection whose token list holds exactly
the query. -/
theorem claim10_witness :
    (search_fuzzy ['a'] 0 [⟨['f'], ['a'], [0], [], [['a']]⟩]).map (fun r => r.1) =
        [(['f'], 0)].map (fun r => r.1) ∧
      ∀ r ∈ search_fuzzy ['a'] 0 [⟨['f'], ['a'], [0], [], [['a']]⟩], r.2.1 = ['a'] ∧ r.2.2 = 0 :=
  claim10_fuzzy_zero_agrees_with_exact ['a'] [⟨['f'], ['a'], [0], [], [['a']]⟩] [(['f'], 0)]
    (by decide) (by decide)

/-- C9: every fuzzy result is within the distance bound, the result list
is non-decreasing in distance, ties keep the stable enumeration order
(filtering the result at any fixed distance gives exactly the
enumeration-order candidates at that distance), and a token equal to the
query yields a hit at distance 0. -/
theorem claim9_fuzzy_ordering (q : List Char) (maxd : Nat) (indices : List FMIndex) :
    (∀ r ∈ search_fuzzy q maxd indices, r.2.2 ≤ maxd) ∧
      (search_fuzzy q maxd indices).Pairwise distLeP ∧
      (∀ d, (search_fuzzy q maxd indices).filter (fun r => r.2.2 == d) =
        (fuzzyCandidates q maxd indices).filter (fun r => r.2.2 == d)) ∧
      ∀ e ∈ indices, q ∈ e.tokens → (e.filename, q, 0) ∈ search_fuzzy q maxd indices := by
  refine ⟨?_, ?_, ?_, ?_⟩
  · intro r hr
    rw [search_fuzzy, List.mem_insertionSort, fuzzyCandidates, List.mem_flatten] at hr
    obtain ⟨l, hl, hrl⟩ := hr
    rw [List.mem_map] at hl
    obtain ⟨e, _, rfl⟩ := hl
    rw [List.mem_filterMap] at hrl
    obtain ⟨tok, _, hf⟩ := hrl
    by_cases hc : levenshtein q tok ≤ maxd
    · rw [if_pos hc] at hf
      cases hf
      exact hc
    · rw [if_neg hc] at hf
      cases hf
  · exact List.sorted_insertionSort distLeP _
  · intro d
    have hpw : ((fuzzyCandidates q maxd indices).filter (fun r => r.2.2 == d)).Pairwise distLeP := by
      apply List.pairwise_of_forall_mem_list
      intro a ha b hb
      have ha' := (List.mem_filter.mp ha).2
      have hb' := (List.mem_filter.mp hb).2
      rw [beq_iff_eq] at ha' hb'
      rw [distLeP, ha', hb']
    have hsub : ((fuzzyCandidates q maxd indices).filter (fun r => r.2.2 == d)).Sublist
        (search_fuzzy q maxd indices) :=
      List.sublist_insertionSort hpw (List.filter_sublist _)
    have hfix : ((fuzzyCandidates q maxd indices).filter (fun r => r.2.2 == d)).filter
        (fun r => r.2.2 == d) = (fuzzyCandidates q maxd indices).filter (fun r => r.2.2 == d) := by
      rw [List.filter_eq_self]
      intro a ha
      exact (List.mem_filter.mp ha).2
    have hsub2 : ((fuzzyCandidates q maxd indices).filter (fun r => r.2.2 == d)).Sublist
        ((search_fuzzy q maxd indices).filter (fun r => r.2.2 == d)) := by
      have := List.Sublist.filter (fun r => r.2.2 == d) hsub
      rwa [hfix] at this
    have hperm : ((search_fuzzy q maxd indices).filter (fun r => r.2.2 == d)).Perm
        ((fuzzyCandidates q maxd indices).filter (fun r => r.2.2 == d)) :=
      (List.perm_insertionSort distLeP _).filter _
    exact (hsub2.eq_of_length hperm.length_eq.symm).symm
  · intro e he hqe
    rw [search_fuzzy, List.mem_insertionSort, fuzzyCandidates, List.mem_flatten]
    refine ⟨_, List.mem_map_of_mem _ he, ?_⟩
    rw [List.mem_filterMap]
    refine ⟨q, hqe, ?_⟩
    rw [levenshtein_self]
    simp

/-- C9 witness: the theorem instantiated at a two-token entry. -/
theorem claim9_witness :
    (∀ r ∈ search_fuzzy ['c'] 1 [⟨['f'], ['c'], [0], [], [['c'], ['b']]⟩], r.2.2 ≤ 1) ∧
      (search_fuzzy ['c'] 1 [⟨['f'], ['c'], [0], [], [['c'], ['b']]⟩]).Pairwise distLeP ∧
      (∀ d, (search_fuzzy ['c'] 1 [⟨['f'], ['c'], [0], [], [['c'], ['b']]⟩]).filter
          (fun r => r.2.2 == d) =
        (fuzzyCandidates ['c'] 1 [⟨['f'], ['c'], [0], [], [['c'], ['b']]⟩]).filter
          (fun r => r.2.2 == d)) ∧
      ∀ e ∈ [⟨['f'], ['c'], [0], [], [['c'], ['b']]⟩], ['c'] ∈ FMIndex.tokens e →
        (FMIndex.filename e, ['c'], 0) ∈ search_fuzzy ['c'] 1 [⟨['f'], ['c'], [0], [], [['c'], ['b']]⟩] :=
  claim9_fuzzy_ordering ['c'] 1 [⟨['f'], ['c'], [0], [], [['c'], ['b']]⟩]

theorem strLe_refl (a : List Char) : strLe a a = true := by
  induction a with
  | nil => rfl
  | cons x xs ih => simp [strLe, ih]

theorem strLe_total (a : List Char) : ∀ b, strLe a b = true ∨ strLe b a = true := by
  induction a with
  | nil => intro b; left; rfl
  | cons x xs ih =>
    intro b
    cases b with
    | nil => right; rfl
    | cons y ys =>
      rcases lt_trichotomy x y with h | h | h
      · left; simp [strLe, h]
      · subst h
        rcases ih ys with h' | h'
        · left; simp [strLe, h']
        · right; simp [strLe, h']
      · right; simp [strLe, h]

theorem strLe_cons_iff (x y : Char) (xs ys : List Char) :
    strLe (x :: xs) (y :: ys) = true ↔ x < y ∨ (x = y ∧ strLe xs ys = true) := by
  rw [strLe]
  split_ifs with h1 h2
  · simp [h1]
  · constructor
    · intro h; cases h
    · rintro (h | ⟨rfl, _⟩)
      · exact absurd (lt_trans h h2) (lt_irrefl x)
      · exact absurd h2 (lt_irrefl x)
  · have hxy : x = y := le_antisymm (not_lt.mp h2) (not_lt.mp h1)
    simp [hxy]

theorem strLe_trans : ∀ a b c : List Char,
    strLe a b = true → strLe b c = true → strLe a c = true := by
  intro a
  induction a with
  | nil => intro b c _ _; rfl
  | cons x xs ih =>
    intro b c hab hbc
    cases b with
    | nil => simp [strLe] at hab
    | cons y ys =>
      cases c with
      | nil => simp [strLe] at hbc
      | cons z zs =>
        rw [strLe_cons_iff] at hab hbc ⊢
        rcases hab with hxy | ⟨rfl, hab2⟩
        · rcases hbc with hyz | ⟨rfl, _⟩
          · exact Or.inl (lt_trans hxy hyz)
          · exact Or.inl hxy
        · rcases hbc with hyz | ⟨rfl, hbc2⟩
          · exact Or.inl hyz
          · exact Or.inr ⟨rfl, ih ys zs hab2 hbc2⟩

theorem strLe_antisymm : ∀ a b : List Char,
    strLe a b = true → strLe b a = true → a = b := by
  intro a
  induction a with
  | nil =>
    intro b _ hba
    cases b with
    | nil => rfl
    | cons y ys => simp [strLe] at hba
  | cons x xs ih =>
    intro b hab hba
    cases b with
    | nil => simp [strLe] at hab
    | cons y ys =>
      rw [strLe_cons_iff] at hab hba
      rcases hab with hxy | ⟨rfl, hab2⟩
      · rcases hba with hyx | ⟨heq, _⟩
        · exact absurd (lt_trans hxy hyx) (lt_irrefl x)
        · subst heq; exact absurd hxy (lt_irrefl _)
      · rcases hba with hyx | ⟨_, hba2⟩
        · exact absurd hyx (lt_irrefl x)
        · rw [ih ys hab2 hba2]

theorem strLe_append_of_prefix_free (x y : List Char) :
    ∀ u v : List Char, ¬ u <+: v → ¬ v <+: u →
      strLe (u ++ x) (v ++ y) = strLe u v := by
  intro u
  induction u with
  | nil => intro v hu _; exact absurd (List.nil_prefix) hu
  | cons a as ih =>
    intro v huv hvu
    cases v with
    | nil => exact absurd (List.nil_prefix) hvu
    | cons b bs =>
      rw [List.cons_append, List.cons_append]
      rcases lt_trichotomy a b with h | h | h
      · simp only [strLe, h, if_pos]
      · subst h
        have h1 : ¬ as <+: bs := fun hp => huv (List.cons_prefix_cons.mpr ⟨rfl, hp⟩)
        have h2 : ¬ bs <+: as := fun hp => hvu (List.cons_prefix_cons.mpr ⟨rfl, hp⟩)
        simp only [strLe, lt_irrefl, if_neg, if_false, ih bs h1 h2]
      · simp only [strLe, lt_asymm h, h, if_neg, if_false, if_pos]

theorem sentinel_drop_prefix_free (s : List Char) (c0 : Char) (h2 : ∀ d ∈ s, c0 < d) :
    ∀ i j, i ≤ s.length → j ≤ s.length →
      ((s ++ [c0]).drop i <+: (s ++ [c0]).drop j) → i = j := by
  intro i j hi hj hpre
  rw [List.drop_append_of_le_length hi, List.drop_append_of_le_length hj] at hpre
  obtain ⟨tail, htail⟩ := hpre
  have hnotmem : c0 ∉ s := fun hmem => absurd (h2 c0 hmem) (lt_irrefl c0)
  cases tail with
  | nil =>
    rw [List.append_nil] at htail
    have hdrop : s.drop i = s.drop j := List.append_cancel_right htail
    have hlen := congrArg List.length hdrop
    rw [List.length_drop, List.length_drop] at hlen
    omega
  | cons z zs =>
    exfalso
    have hlast : ((s.drop i ++ [c0]) ++ (z :: zs)).getLast? = (z :: zs).getLast? := by
      rw [List.getLast?_append]
      cases hzz : (z :: zs).getLast? with
      | none => rw [List.getLast?_eq_none_iff] at hzz; cases hzz
      | some w => rfl
    rw [htail, List.getLast?_concat] at hlast
    have hc0tail : c0 ∈ z :: zs := List.mem_of_getLast?_eq_some hlast.symm
    have hcount := congrArg (List.count c0) htail
    rw [List.count_append, List.count_append, List.count_append] at hcount
    have hzero_i : List.count c0 (s.drop i) = 0 :=
      List.count_eq_zero.mpr (fun hmem => hnotmem (List.mem_of_mem_drop hmem))
    have hzero_j : List.count c0 (s.drop j) = 0 :=
      List.count_eq_zero.mpr (fun hmem => hnotmem (List.mem_of_mem_drop hmem))
    have htailzero : List.count c0 (z :: zs) = 0 := by
      rw [hzero_i, hzero_j] at hcount
      omega
    exact absurd hc0tail (fun hmem => by
      rw [List.count_eq_zero] at htailzero
      exact htailzero hmem)

theorem rotation_strLe_eq_suffix (s : List Char) (c0 : Char) (h2 : ∀ d ∈ s, c0 < d)
    (i j : Nat) (hi : i < (s ++ [c0]).length) (hj : j < (s ++ [c0]).length) :
    strLe (rotation (s ++ [c0]) i) (rotation (s ++ [c0]) j) =
      strLe ((s ++ [c0]).drop i) ((s ++ [c0]).drop j) := by
  by_cases hij : i = j
  · subst hij
    rw [strLe_refl, strLe_refl]
  · have hi' : i ≤ s.length := by
      rw [List.length_append, List.length_singleton] at hi
      omega
    have hj' : j ≤ s.length := by
      rw [List.length_append, List.length_singleton] at hj
      omega
    rw [rotation, rotation]
    exact strLe_append_of_prefix_free _ _ _ _
      (fun hp => hij (sentinel_drop_prefix_free s c0 h2 i j hi' hj' hp))
      (fun hp => hij ((sentinel_drop_prefix_free s c0 h2 j i hj' hi' hp).symm))

theorem mem_suffix_array_lt (t : List Char) {k : Nat} (hk : k ∈ suffix_array t) :
    k < t.length := by
  rw [suffix_array, List.mem_insertionSort, List.mem_range] at hk
  exact hk

theorem sorted_rotations_eq_map_suffix_array (s : List Char) (c0 : Char)
    (h2 : ∀ d ∈ s, c0 < d) :
    (rotations (s ++ [c0])).insertionSort strLeP =
      (suffix_array (s ++ [c0])).map (rotation (s ++ [c0])) := by
  haveI : IsTotal (List Char) strLeP := ⟨fun a b => strLe_total a b⟩
  haveI : IsTrans (List Char) strLeP := ⟨fun a b c => strLe_trans a b c⟩
  haveI : IsAntisymm (List Char) strLeP := ⟨fun a b => strLe_antisymm a b⟩
  haveI : IsTotal Nat (suffLeP (s ++ [c0])) := ⟨fun a b => strLe_total _ _⟩
  haveI : IsTrans Nat (suffLeP (s ++ [c0])) := ⟨fun a b c => strLe_trans _ _ _⟩
  apply List.eq_of_perm_of_sorted (r := strLeP)
  · refine (List.perm_insertionSort strLeP _).trans ?_
    have hmap : List.Perm ((suffix_array (s ++ [c0])).map (rotation (s ++ [c0])))
        ((List.range (s ++ [c0]).length).map (rotation (s ++ [c0]))) :=
      (List.perm_insertionSort (suffLeP (s ++ [c0])) _).map _
    exact hmap.symm
  · exact List.sorted_insertionSort strLeP _
  · rw [List.Sorted, List.pairwise_map]
    have hs : (suffix_array (s ++ [c0])).Pairwise (suffLeP (s ++ [c0])) :=
      List.sorted_insertionSort _ _
    refine hs.imp_of_mem ?_
    intro a b ha hb hr
    have ha' : a < (s ++ [c0]).length := mem_suffix_array_lt _ ha
    have hb' : b < (s ++ [c0]).length := mem_suffix_array_lt _ hb
    show strLe (rotation _ a) (rotation _ b) = true
    rw [rotation_strLe_eq_suffix s c0 h2 a b ha' hb']
    exact hr

theorem getLast?_rotation (t : List Char) (c0 : Char) (k : Nat) (hk : k < t.length) :
    (rotation t k).getLast? = some (t.getD ((k + t.length - 1) % t.length) c0) := by
  have hn : 0 < t.length := lt_of_le_of_lt (Nat.zero_le k) hk
  rcases Nat.eq_zero_or_pos k with hk0 | hkpos
  · subst hk0
    rw [rotation, List.drop_zero, List.take_zero, List.append_nil]
    have hmod : (0 + t.length - 1) % t.length = t.length - 1 := by
      rw [Nat.zero_add]
      exact Nat.mod_eq_of_lt (by omega)
    rw [hmod, List.getLast?_eq_getElem?, List.getD_eq_getElem?_getD]
    cases hge : t[t.length - 1]? with
    | none =>
      rw [List.getElem?_eq_none_iff] at hge
      omega
    | some w => rfl
  · rw [rotation]
    have htake : t.take k ≠ [] := by
      rw [Ne, List.take_eq_nil_iff]
      rintro (h | h)
      · omega
      · rw [h] at hk
        simp at hk
    have hmod : (k + t.length - 1) % t.length = k - 1 := by
      have harith : k + t.length - 1 = (k - 1) + 1 * t.length := by omega
      rw [harith, Nat.add_mul_mod_self_right]
      exact Nat.mod_eq_of_lt (by omega)
    rw [List.getLast?_append, hmod]
    cases hlast : (t.take k).getLast? with
    | none =>
      rw [List.getLast?_eq_none_iff] at hlast
      exact absurd hlast htake
    | some w =>
      rw [Option.or_some]
      rw [List.getLast?_eq_getElem?] at hlast
      have hlen : (t.take k).length = k := by
        rw [List.length_take]
        omega
      rw [hlen, List.getElem?_take] at hlast
      rw [if_pos (by omega)] at hlast
      rw [List.getD_eq_getElem?_getD, hlast]
      rfl

theorem reduceOption_map_eq_map {α β : Type} (g : α → β) (f : α → Option β) :
    ∀ l : List α, (∀ x ∈ l, f x = some (g x)) → (l.map f).reduceOption = l.map g := by
  intro l
  induction l with
  | nil => intro _; rfl
  | cons a as ih =>
    intro h
    rw [List.map_cons, List.map_cons, h a (List.mem_cons_self a as),
      List.reduceOption_cons_of_some]
    exact congrArg _ (ih (fun x hx => h x (List.mem_cons_of_mem a hx)))

/-- C2 amended: for a text ending in a sentinel character that occurs
nowhere else and is strictly smaller than every other character of the
text, the rotation-sorted BWT agrees with the suffix-array identity
`bwt[i] = text[(sa[i] + N - 1) mod N]`; the counterexample shows the
unsentineled claim fails. -/
theorem claim2_amended_bwt_of_suffix_array (s : List Char) (c0 : Char)
    (h2 : ∀ d ∈ s, c0 < d) :
    build_bwt (s ++ [c0]) =
      (suffix_array (s ++ [c0])).map
        (fun k => (s ++ [c0]).getD ((k + (s ++ [c0]).length - 1) % (s ++ [c0]).length) c0) := by
  rw [build_bwt, sorted_rotations_eq_map_suffix_array s c0 h2, List.map_map]
  exact reduceOption_map_eq_map _ _ _
    (fun k hk => getLast?_rotation (s ++ [c0]) c0 k (mem_suffix_array_lt _ hk))

/-- C2 amended witness: the sentinel text formed by appending a dollar
sentinel to the two-character text ba. -/
theorem claim2_amended_witness :
    (∀ d ∈ ['b', 'a'], '$' < d) ∧
      build_bwt (['b', 'a'] ++ ['$']) =
        (suffix_array (['b', 'a'] ++ ['$'])).map
          (fun k =>
            (['b', 'a'] ++ ['$']).getD
              ((k + (['b', 'a'] ++ ['$']).length - 1) % (['b', 'a'] ++ ['$']).length) '$') :=
  ⟨by decide, claim2_amended_bwt_of_suffix_array ['b', 'a'] '$' (by decide)⟩

theorem length_natToBytes : ∀ (k n : Nat), (natToBytes k n).length = k := by
  intro k
  induction k with
  | zero => intro n; rfl
  | succ m ih =>
    intro n
    rw [natToBytes, List.length_cons, ih]

theorem bytesToNat_natToBytes : ∀ (k n : Nat), n < 256 ^ k →
    bytesToNat (natToBytes k n) = n := by
  intro k
  induction k with
  | zero =>
    intro n h
    rw [pow_zero] at h
    interval_cases n
    rfl
  | succ m ih =>
    intro n h
    rw [natToBytes, bytesToNat, ih (n / 256) (by
      rw [Nat.div_lt_iff_lt_mul (by norm_num)]
      calc n < 256 ^ (m + 1) := h
        _ = 256 ^ m * 256 := by rw [pow_succ]
      )]
    omega

theorem parseNat_encodeNat (n : Nat) (h : n < 2 ^ 64) (r : List Nat) :
    parseNat (encodeNat n ++ r) = some (n, r) := by
  have hlen : (natToBytes 8 n).length = 8 := length_natToBytes 8 n
  have hval : bytesToNat (natToBytes 8 n) = n :=
    bytesToNat_natToBytes 8 n (by norm_num at h ⊢; omega)
  rw [parseNat, encodeNat]
  generalize hg : natToBytes 8 n = l at hlen hval
  rw [if_pos (by rw [List.length_append, hlen]; omega)]
  rw [← hlen, List.take_left, List.drop_left, hval]

theorem parseChar_encodeChar (c : Char) (r : List Nat) :
    parseChar (encodeChar c ++ r) = some (c, r) := by
  rw [parseChar, encodeChar,
    parseNat_encodeNat c.toNat (lt_trans (UInt32.toNat_lt c.val) (by norm_num)) r]
  dsimp only
  rw [dif_pos (show (Char.toNat c).isValidChar from c.valid), Char.ofNat_toNat]

theorem parseCount_encode {α : Type} (p : List Nat → Option (α × List Nat)) (enc : α → List Nat) :
    ∀ (l : List α) (r : List Nat), (∀ x ∈ l, ∀ r', p (enc x ++ r') = some (x, r')) →
      parseCount p l.length ((l.map enc).flatten ++ r) = some (l, r) := by
  intro l
  induction l with
  | nil => intro r _; rfl
  | cons a as ih =>
    intro r h
    rw [List.map_cons, List.flatten_cons, List.append_assoc, List.length_cons, parseCount]
    rw [h a (List.mem_cons_self a as) ((as.map enc).flatten ++ r)]
    dsimp only
    rw [ih r (fun x hx r' => h x (List.mem_cons_of_mem a hx) r')]

theorem parseListOf_encodeListOf {α : Type} (p : List Nat → Option (α × List Nat))
    (enc : α → List Nat) (l : List α) (r : List Nat) (hlen : l.length < 2 ^ 64)
    (h : ∀ x ∈ l, ∀ r', p (enc x ++ r') = some (x, r')) :
    parseListOf p (encodeListOf enc l ++ r) = some (l, r) := by
  rw [parseListOf, encodeListOf, List.append_assoc, parseNat_encodeNat l.length hlen]
  dsimp only
  exact parseCount_encode p enc l r h

theorem parseStr_encodeStr (s : List Char) (hs : wfStr s) (r : List Nat) :
    parseStr (encodeStr s ++ r) = some (s, r) :=
  parseListOf_encodeListOf parseChar encodeChar s r hs (fun x _ r' => parseChar_encodeChar x r')

theorem parseOccRow_encodeOccRow (p : Char × List Nat) (hp : p.2.length < 2 ^ 64)
    (hx : ∀ x ∈ p.2, wfNat x) (r : List Nat) :
    parseOccRow (encodeOccRow p ++ r) = some (p, r) := by
  rw [parseOccRow, encodeOccRow, List.append_assoc, parseChar_encodeChar]
  dsimp only
  rw [parseListOf_encodeListOf parseNat encodeNat p.2 r hp (fun x hxm r' =>
    parseNat_encodeNat x (hx x hxm) r')]

theorem parseEntry_encodeEntry (e : FMIndex) (he : wfEntry e) (r : List Nat) :
    parseEntry (encodeEntry e ++ r) = some (e, r) := by
  obtain ⟨h1, h2, ⟨h3a, h3b⟩, ⟨h4a, h4b⟩, ⟨h5a, h5b⟩⟩ := he
  rw [parseEntry, encodeEntry]
  rw [List.append_assoc, List.append_assoc, List.append_assoc, List.append_assoc]
  rw [parseStr_encodeStr e.filename h1]
  dsimp only
  rw [parseStr_encodeStr e.bwt h2]
  dsimp only
  rw [parseListOf_encodeListOf parseNat encodeNat e.suffix_array _ h3a
    (fun x hx r' => parseNat_encodeNat x (h3b x hx) r')]
  dsimp only
  rw [parseListOf_encodeListOf parseOccRow encodeOccRow e.occ_table _ h4a
    (fun x hx r' => parseOccRow_encodeOccRow x (h4b x hx).1 (h4b x hx).2 r')]
  dsimp only
  rw [parseListOf_encodeListOf parseStr encodeStr e.tokens _ h5a
    (fun x hx r' => parseStr_encodeStr x (h5b x hx) r')]

/-- C5: decoding the bytes produced by encoding an index collection (the
round trip `save_fm_indexes` then `load_fm_indexes` performs) yields a
structurally equal collection — every filename, BWT, suffix array,
occurrence table and token list in the same order. -/
theorem claim5_persistence_round_trip (c : FMIndexCollection) (hc : wfCollection c) :
    decode (encode c) = some c := by
  obtain ⟨hlen, hent⟩ := hc
  have h : parseListOf parseEntry (encode c ++ []) = some (c.indexes, []) :=
    parseListOf_encodeListOf parseEntry encodeEntry c.indexes [] hlen
      (fun e he r' => parseEntry_encodeEntry e (hent e he) r')
  rw [List.append_nil] at h
  rw [decode, h]

/-- C5 witness: a one-entry collection round trips. -/
theorem claim5_witness :
    wfCollection ⟨[⟨['f'], ['b', 'a'], [0, 1], [('a', [0, 0, 1])], [['a', 'b']]⟩]⟩ ∧
      decode (encode ⟨[⟨['f'], ['b', 'a'], [0, 1], [('a', [0, 0, 1])], [['a', 'b']]⟩]⟩) =
        some ⟨[⟨['f'], ['b', 'a'], [0, 1], [('a', [0, 0, 1])], [['a', 'b']]⟩]⟩ :=
  ⟨by constructor <;> simp [wfEntry, wfStr, wfNat],
    claim5_persistence_round_trip _ (by constructor <;> simp [wfEntry, wfStr, wfNat])⟩

end Hunt
